import Mathlib

/-!
Verification of the MorganFingerprint engine (`morgan.py`) of the
StructureFingerprint repository.

The embedding below translates the module's data flow into Lean:
the graph adapter (`MoleculeContainer` access used by the code),
the bounded path enumerator `_bfs`, the fragment canonicalizer
`_fragments` (including its symmetric edge-label cache), and the
bit-vector assembler `transform_bitset` / `transform`.  The external
hash `tuple_hash` (from CGRtools, outside this repository) is a
parameter of the embedding; claims hold for every hash function.
-/

namespace MorganFP

/-- The graph adapter: the engine reads `molecule._atoms` (node ids with
integer labels, `int(a)`), `molecule._bonds` (adjacency with integer
edge labels, `int(bonds[x][y])`).  Nodes are natural numbers, labels are
integers. -/
structure Graph where
  atoms : List ℕ
  atomLabel : ℕ → ℤ
  adj : ℕ → List ℕ
  bondLabel : ℕ → ℕ → ℤ

/-- The fields stored by `MorganFingerprint.__init__`. -/
structure Config where
  radius : ℕ
  mask : ℕ
  length : ℕ
  log : ℕ
  numberActiveBits : ℕ
deriving DecidableEq

/-- Floor of the base-2 logarithm, fuel-indexed (structural recursion;
the first argument only bounds the depth, `n` levels always suffice). -/
def log2Aux : ℕ → ℕ → ℕ
  | 0, _ => 0
  | fuel + 1, n => if n ≤ 1 then 0 else log2Aux fuel (n / 2) + 1

/-- Floor of the base-2 logarithm of a positive integer, the value of
Python's `int(log2(length))` for the integer inputs relevant here. -/
def log2f (n : ℕ) : ℕ :=
  log2Aux n n

/-- The field assignments of `__init__`: `_mask = length - 1`,
`_log = int(log2(length))` (floor of the base-2 logarithm for the
integer inputs relevant here), `_radius`, `_length`,
`_number_active_bits` stored as given. -/
def mkConfig (radius length numberActiveBits : ℕ) : Config :=
  { radius := radius
    mask := length - 1
    length := length
    log := log2f length
    numberActiveBits := numberActiveBits }

/-- `MorganFingerprint.__init__` as a fallible constructor: the body
performs no validation of its arguments; the only failure is the domain
error of `log2(length)` when `length` is not positive. -/
def init (radius length numberActiveBits : ℕ) : Option Config :=
  if length = 0 then none else some (mkConfig radius length numberActiveBits)

/-- One extension step of `_bfs`:
`var = [now + [x] for x in bonds[now[-1]] if x not in now]`.
(`now` is never empty when the code runs this line; the default value
for `getLast?` is unreachable.) -/
def extensions (adj : ℕ → List ℕ) (now : List ℕ) : List (List ℕ) :=
  ((adj (now.getLast?.getD 0)).filter (fun x => decide (x ∉ now))).map
    (fun x => now ++ [x])

/-- The worklist loop of `_bfs`, with explicit fuel: dequeue `now` from
the left; if the extension list is empty or the extended paths have
`>= radius - 1` nodes (`len(var[0]) >= self._radius - 1`), drop them;
otherwise append them to both the output `arr` and the queue.  `none`
means the fuel ran out before the queue emptied. -/
def bfsAux (adj : ℕ → List ℕ) (R : ℕ) :
    ℕ → List (List ℕ) → List (List ℕ) → Option (List (List ℕ))
  | _, [], arr => some arr
  | 0, _ :: _, _ => none
  | fuel + 1, now :: queue, arr =>
    let var := extensions adj now
    if var = [] ∨ R - 1 ≤ now.length + 1 then
      bfsAux adj R fuel queue arr
    else
      bfsAux adj R fuel (queue ++ var) (arr ++ var)

/-- Fuel-indexed enumeration of all paths the loop of `_bfs` ever
derives from `p` (the extensions of `p` kept by the guard, their kept
extensions, and so on).  The fuel only bounds the recursion depth;
`R` levels always suffice because kept paths stay below `R - 1`
nodes. -/
def descF (adj : ℕ → List ℕ) (R : ℕ) : ℕ → List ℕ → List (List ℕ)
  | 0, _ => []
  | fuel + 1, p =>
    if extensions adj p = [] ∨ R - 1 ≤ p.length + 1 then []
    else extensions adj p ++ (extensions adj p).flatMap (descF adj R fuel)

/-- All paths the loop of `_bfs` ever derives from `p`.  Used to
measure the work remaining in the queue. -/
def desc (adj : ℕ → List ℕ) (R : ℕ) (p : List ℕ) : List (List ℕ) :=
  descF adj R R p

/-- Work remaining in a queue: each entry costs one dequeue plus one
dequeue for every path that will ever descend from it. -/
def queueMeasure (adj : ℕ → List ℕ) (R : ℕ) (queue : List (List ℕ)) : ℕ :=
  (queue.map (fun p => (desc adj R p).length + 1)).sum

/-- The seed worklist of `_bfs`: `arr = [[x] for x in atoms]`. -/
def initPaths (g : Graph) : List (List ℕ) :=
  g.atoms.map (fun x => [x])

/-- Fuel sufficient for `_bfs` to drain its queue. -/
def bfsFuel (g : Graph) (R : ℕ) : ℕ :=
  queueMeasure g.adj R (initPaths g)

/-- `_bfs(molecule)`: the list of enumerated paths. -/
def bfs (g : Graph) (R : ℕ) : List (List ℕ) :=
  (bfsAux g.adj R (bfsFuel g R) (initPaths g) (initPaths g)).getD []

/-- Python tuple comparison `var > rev_var` on integer sequences:
lexicographic, a proper nonempty extension is greater. -/
def listGT : List ℤ → List ℤ → Bool
  | [], _ => false
  | _ :: _, [] => true
  | x :: xs, y :: ys =>
    if y < x then true else if x < y then false else listGT xs ys

/-- The edge-label cache of `_fragments` (`cache = defaultdict(dict)`),
as a symmetric partial map. -/
def Cache : Type := ℕ → ℕ → Option ℤ

/-- The cached edge lookup of `_fragments`:
`b = cache[x].get(y); if not b: b = cache[x][y] = cache[y][x] = int(bonds[x][y])`.
A missing entry, and also a cached `0` (falsy in Python), recomputes and
stores the label in both directions. -/
def getBond (g : Graph) (c : Cache) (x y : ℕ) : ℤ × Cache :=
  let store : ℤ → Cache := fun b u v =>
    if (u = x ∧ v = y) ∨ (u = y ∧ v = x) then some b else c u v
  match c x y with
  | some b => if b = 0 then (g.bondLabel x y, store (g.bondLabel x y)) else (b, c)
  | none => (g.bondLabel x y, store (g.bondLabel x y))

/-- The inner loop of `_fragments` over `zip(frag, frag[1:])`: append
the (cached) bond label and the next atom label for every consecutive
pair, threading the cache. -/
def fragVar (g : Graph) : Cache → List ℤ → ℕ → List ℕ → List ℤ × Cache
  | c, acc, _, [] => (acc, c)
  | c, acc, prev, y :: rest =>
    let bc := getBond g c prev y
    fragVar g bc.2 (acc ++ [bc.1, g.atomLabel y]) y rest

/-- The interleaved label sequence `var` built by `_fragments` for one
path, starting from `var = [atoms[frag[0]]]`.  (`_fragments` is only
called on nonempty paths; the `[]` case is unreachable in the source.) -/
def fragOf (g : Graph) (c : Cache) : List ℕ → List ℤ × Cache
  | [] => ([], c)
  | a :: rest => fragVar g c [g.atomLabel a] a rest

/-- The loop of `_fragments` over all paths: canonicalize each `var`
against its reversal and collect the results in a set (modelled as a
duplicate-free list: `List.insert` adds a value only when absent, the
executable counterpart of `set.add`). -/
def fragmentsAux (g : Graph) : Cache → List (List ℕ) → List (List ℤ) → List (List ℤ)
  | _, [], out => out
  | c, frag :: rest, out =>
    let vc := fragOf g c frag
    let v := vc.1
    let rv := v.reverse
    fragmentsAux g vc.2 rest (if listGT v rv then out.insert v else out.insert rv)

/-- `_fragments(arr, molecule)`: the set of canonical fragments of the
paths in `arr`, built with an initially empty edge-label cache. -/
def fragments (g : Graph) (arr : List (List ℕ)) : List (List ℤ) :=
  fragmentsAux g (fun _ _ => none) arr []

/-- The tail of the interleaved label sequence after the first atom:
`[bond(prev, y1), label(y1), bond(y1, y2), label(y2), ...]`, looked up
directly in the graph (the cache-free meaning of `fragVar`). -/
def fragTail (g : Graph) : ℕ → List ℕ → List ℤ
  | _, [] => []
  | prev, y :: rest => g.bondLabel prev y :: g.atomLabel y :: fragTail g y rest

/-- The interleaved label sequence of a path,
`[label(n0), edge(n0,n1), label(n1), ...]`, cache-free. -/
def fragSeq (g : Graph) : List ℕ → List ℤ
  | [] => []
  | a :: rest => g.atomLabel a :: fragTail g a rest

/-- The canonical fragment of one path: the lexicographically larger of
the interleaved sequence and its reversal (the body of the `_fragments`
loop, cache-free). -/
def canon (g : Graph) (p : List ℕ) : List ℤ :=
  let v := fragSeq g p
  if listGT v v.reverse then v else v.reverse

/-- The bit positions derived from a list of hash values:
`[tpl >> (log * x) & (mask - 1) for x in range(number_active_bits) for tpl in hashes]`
with `mask = length - 1`. -/
def bitPositions (cfg : Config) (hashes : List ℕ) : List ℕ :=
  (List.range cfg.numberActiveBits).flatMap
    (fun x => hashes.map (fun tpl => (tpl >>> (cfg.log * x)) &&& (cfg.mask - 1)))

/-- Modelled from the spec: section 4.4 describes the assembler as
masking each shifted hash into the full range `[0, L)` with the
power-of-two modulus, i.e. with `length - 1` itself.  Stated only to be
compared with the source's `bitPositions` (which masks with
`mask - 1 = length - 2`). -/
def specBitPositions (cfg : Config) (hashes : List ℕ) : List ℕ :=
  (List.range cfg.numberActiveBits).flatMap
    (fun x => hashes.map (fun tpl => (tpl >>> (cfg.log * x)) &&& cfg.mask))

/-- The per-graph hash set of `transform_bitset`:
`hashes = {tuple_hash(tpl) for tpl in arr}` over the canonical
fragments of `_bfs`'s paths, for a given hash function (a set of
integers, modelled as a deduplicated list). -/
def hashesOf (cfg : Config) (hash : List ℤ → ℕ) (g : Graph) : List ℕ :=
  ((fragments g (bfs g cfg.radius)).map hash).dedup

/-- `transform_bitset(x)`: one list of candidate bit positions per
graph, in input order. -/
def transform_bitset (cfg : Config) (hash : List ℤ → ℕ) (mols : List Graph) :
    List (List ℕ) :=
  mols.map (fun mol => bitPositions cfg (hashesOf cfg hash mol))

/-- `transform(x)`: the dense batch.  Each row starts as `length` zeros
and every listed bit position is set to `1`. -/
def transform (cfg : Config) (hash : List ℤ → ℕ) (mols : List Graph) :
    List (List ℕ) :=
  (transform_bitset cfg hash mols).map
    (fun lst => lst.foldl (fun fp bit => fp.set bit 1) (List.replicate cfg.length 0))

/-- Modelled from the spec: a deterministic, order-sensitive stand-in
for the external `tuple_hash` of CGRtools (outside this repository),
used to instantiate witnesses.  Every claim about the engine is proved
for an arbitrary hash function. -/
def hashModel (l : List ℤ) : ℕ :=
  l.foldl (fun a v => a * 1000003 + (2 * v).natAbs + (if v < 0 then 1 else 0)) 97

/-- Executable adjacency-chain check: every consecutive pair of the
list is connected in the adjacency structure. -/
def chainB (adj : ℕ → List ℕ) : List ℕ → Bool
  | [] => true
  | [_] => true
  | a :: b :: rest => decide (b ∈ adj a) && chainB adj (b :: rest)

/-- A path of the spec's data model (section 3): a nonempty sequence of
nodes of the graph, with no repeated node, whose consecutive pairs are
connected.  Stated from the spec's words; the enumerator's output is
compared against it. -/
def isSimplePath (g : Graph) (p : List ℕ) : Prop :=
  p ≠ [] ∧ p.Nodup ∧ p.headD 0 ∈ g.atoms ∧ List.Chain' (fun a b => b ∈ g.adj a) p

theorem chainB_iff (adj : ℕ → List ℕ) :
    ∀ p, chainB adj p = true ↔ List.Chain' (fun a b => b ∈ adj a) p
  | [] => by simp [chainB]
  | [a] => by simp [chainB]
  | a :: b :: rest => by
    rw [chainB, List.chain'_cons, Bool.and_eq_true, decide_eq_true_iff,
      chainB_iff adj (b :: rest)]

instance (g : Graph) (p : List ℕ) : Decidable (isSimplePath g p) :=
  decidable_of_iff (p ≠ [] ∧ p.Nodup ∧ p.headD 0 ∈ g.atoms ∧ chainB g.adj p = true)
    (by simp only [isSimplePath, chainB_iff])

/-- The single-node graph with no edges (the isolated-node fixture of
the spec, section 8.6). -/
def gIso (n : ℕ) (lab : ℤ) : Graph :=
  { atoms := [n], atomLabel := fun _ => lab, adj := fun _ => [], bondLabel := fun _ _ => 0 }

/-- A two-node graph `0 – 1` with one edge, used as a fixture. -/
def gPath2 : Graph :=
  { atoms := [0, 1]
    atomLabel := fun x => if x = 0 then 6 else 7
    adj := fun x => if x = 0 then [1] else if x = 1 then [0] else []
    bondLabel := fun _ _ => 1 }

instance : Inhabited Graph :=
  ⟨{ atoms := [], atomLabel := fun _ => 0, adj := fun _ => [], bondLabel := fun _ _ => 0 }⟩

/-! ### Basic lemmas about the path enumerator -/

theorem flatMap_attach {α β : Type} (l : List α) (f : α → List β) :
    l.attach.flatMap (fun x => f x.1) = l.flatMap f := by
  simp [List.flatMap, ← List.map_map, List.attach_map_subtype_val]

theorem mem_extensions {adj : ℕ → List ℕ} {now q : List ℕ} :
    q ∈ extensions adj now ↔
      ∃ a, a ∈ adj (now.getLast?.getD 0) ∧ a ∉ now ∧ q = now ++ [a] := by
  simp only [extensions, List.mem_map, List.mem_filter, decide_eq_true_eq]
  constructor
  · rintro ⟨a, ⟨ha, hno⟩, rfl⟩; exact ⟨a, ha, hno, rfl⟩
  · rintro ⟨a, ha, hno, rfl⟩; exact ⟨a, ⟨ha, hno⟩, rfl⟩

theorem length_of_mem_extensions {adj : ℕ → List ℕ} {now q : List ℕ}
    (h : q ∈ extensions adj now) : q.length = now.length + 1 := by
  obtain ⟨a, -, -, rfl⟩ := mem_extensions.mp h
  simp

theorem flatMap_congr_mem {α β : Type} {l : List α} {f g : α → List β}
    (h : ∀ a ∈ l, f a = g a) : l.flatMap f = l.flatMap g := by
  induction l with
  | nil => rfl
  | cons a t ih =>
    rw [List.flatMap_cons, List.flatMap_cons, h a (by simp),
      ih (fun b hb => h b (by simp [hb]))]

theorem descF_stable {adj : ℕ → List ℕ} {R : ℕ} :
    ∀ (f₁ f₂ : ℕ) (p : List ℕ),
    R - 2 - p.length ≤ f₁ → R - 2 - p.length ≤ f₂ →
    descF adj R f₁ p = descF adj R f₂ p := by
  intro f₁
  induction f₁ with
  | zero =>
    intro f₂ p h1 h2
    have hg : R - 1 ≤ p.length + 1 := by omega
    cases f₂ with
    | zero => rfl
    | succ g₂ =>
      show ([] : List (List ℕ)) = descF adj R (g₂ + 1) p
      rw [descF, if_pos (Or.inr hg)]
  | succ g₁ ih =>
    intro f₂ p h1 h2
    by_cases hg : extensions adj p = [] ∨ R - 1 ≤ p.length + 1
    · cases f₂ with
      | zero =>
        show descF adj R (g₁ + 1) p = []
        rw [descF, if_pos hg]
      | succ g₂ => rw [descF, descF, if_pos hg, if_pos hg]
    · have hlt : p.length + 1 < R - 1 := by
        rcases not_or.mp hg with ⟨-, h⟩
        omega
      obtain ⟨g₂, rfl⟩ : ∃ g₂, f₂ = g₂ + 1 := by
        cases f₂ with
        | zero => exfalso; omega
        | succ g₂ => exact ⟨g₂, rfl⟩
      rw [descF, descF, if_neg hg, if_neg hg]
      congr 1
      apply flatMap_congr_mem
      intro q hq
      have hqlen : q.length = p.length + 1 := length_of_mem_extensions hq
      exact ih g₂ q (by omega) (by omega)

theorem desc_eq (adj : ℕ → List ℕ) (R : ℕ) (p : List ℕ) :
    desc adj R p =
      if extensions adj p = [] ∨ R - 1 ≤ p.length + 1 then []
      else extensions adj p ++ (extensions adj p).flatMap (desc adj R) := by
  rw [desc]
  by_cases hg : extensions adj p = [] ∨ R - 1 ≤ p.length + 1
  · rw [if_pos hg]
    cases R with
    | zero => rfl
    | succ r => rw [descF, if_pos hg]
  · rw [if_neg hg]
    have hlt : p.length + 1 < R - 1 := by
      rcases not_or.mp hg with ⟨-, h⟩
      omega
    obtain ⟨r, rfl⟩ : ∃ r, R = r + 1 := by
      cases R with
      | zero => exfalso; omega
      | succ r => exact ⟨r, rfl⟩
    rw [descF, if_neg hg]
    congr 1
    apply flatMap_congr_mem
    intro q hq
    have hqlen : q.length = p.length + 1 := length_of_mem_extensions hq
    exact descF_stable r (r + 1) q (by omega) (by omega)

theorem desc_eq_nil {adj : ℕ → List ℕ} {R : ℕ} {p : List ℕ}
    (h : extensions adj p = [] ∨ R - 1 ≤ p.length + 1) : desc adj R p = [] := by
  rw [desc_eq, if_pos h]

theorem desc_eq_cons {adj : ℕ → List ℕ} {R : ℕ} {p : List ℕ}
    (h : ¬(extensions adj p = [] ∨ R - 1 ≤ p.length + 1)) :
    desc adj R p = extensions adj p ++ (extensions adj p).flatMap (desc adj R) := by
  rw [desc_eq, if_neg h]

theorem extensions_nodup {adj : ℕ → List ℕ} (hadj : ∀ v, (adj v).Nodup)
    (now : List ℕ) : (extensions adj now).Nodup := by
  apply List.Nodup.map
  · intro a b hab
    simpa using List.append_inj_right hab rfl
  · exact (hadj _).filter _

theorem queueMeasure_cons (adj : ℕ → List ℕ) (R : ℕ) (p : List ℕ)
    (queue : List (List ℕ)) :
    queueMeasure adj R (p :: queue) =
      (desc adj R p).length + 1 + queueMeasure adj R queue := by
  simp [queueMeasure]

theorem queueMeasure_append (adj : ℕ → List ℕ) (R : ℕ)
    (l₁ l₂ : List (List ℕ)) :
    queueMeasure adj R (l₁ ++ l₂) = queueMeasure adj R l₁ + queueMeasure adj R l₂ := by
  simp [queueMeasure]

theorem queueMeasure_eq (adj : ℕ → List ℕ) (R : ℕ) (l : List (List ℕ)) :
    queueMeasure adj R l = (l.map (fun p => (desc adj R p).length)).sum + l.length := by
  induction l with
  | nil => rfl
  | cons p t ih => rw [queueMeasure_cons, ih]; simp; omega

theorem desc_length_eq {adj : ℕ → List ℕ} {R : ℕ} {now : List ℕ}
    (h : ¬(extensions adj now = [] ∨ R - 1 ≤ now.length + 1)) :
    (desc adj R now).length = queueMeasure adj R (extensions adj now) := by
  rw [desc_eq_cons h, queueMeasure_eq]
  simp [List.length_flatMap, Function.comp_def]
  omega

theorem bfsAux_isSome {adj : ℕ → List ℕ} {R : ℕ} :
    ∀ (fuel : ℕ) (queue arr : List (List ℕ)),
    queueMeasure adj R queue ≤ fuel → (bfsAux adj R fuel queue arr).isSome = true := by
  intro fuel
  induction fuel with
  | zero =>
    intro queue arr hm
    cases queue with
    | nil => rfl
    | cons now rest =>
      rw [queueMeasure_cons] at hm
      omega
  | succ fuel ih =>
    intro queue arr hm
    cases queue with
    | nil => rfl
    | cons now rest =>
      rw [queueMeasure_cons] at hm
      show (bfsAux adj R (fuel + 1) (now :: rest) arr).isSome = true
      rw [bfsAux]
      by_cases h : extensions adj now = [] ∨ R - 1 ≤ now.length + 1
      · rw [if_pos h]
        apply ih
        have hd : desc adj R now = [] := desc_eq_nil h
        rw [hd] at hm
        simp at hm
        omega
      · rw [if_neg h]
        apply ih
        rw [queueMeasure_append]
        rw [desc_length_eq h] at hm
        omega

theorem bfsAux_mem {adj : ℕ → List ℕ} {R : ℕ} :
    ∀ (fuel : ℕ) (queue arr res : List (List ℕ)),
    bfsAux adj R fuel queue arr = some res →
    ∀ x, x ∈ res ↔ x ∈ arr ∨ ∃ q ∈ queue, x ∈ desc adj R q := by
  intro fuel
  induction fuel with
  | zero =>
    intro queue arr res hres x
    cases queue with
    | nil =>
      obtain rfl : arr = res := by simpa [bfsAux] using hres
      simp
    | cons now rest => simp [bfsAux] at hres
  | succ fuel ih =>
    intro queue arr res hres x
    cases queue with
    | nil =>
      obtain rfl : arr = res := by simpa [bfsAux] using hres
      simp
    | cons now rest =>
      rw [bfsAux] at hres
      by_cases h : extensions adj now = [] ∨ R - 1 ≤ now.length + 1
      · rw [if_pos h] at hres
        rw [ih _ _ _ hres x]
        simp [desc_eq_nil h]
      · rw [if_neg h] at hres
        rw [ih _ _ _ hres x]
        have hnow : ∀ y, y ∈ desc adj R now ↔
            y ∈ extensions adj now ∨ ∃ q ∈ extensions adj now, y ∈ desc adj R q := by
          intro y
          rw [desc_eq_cons h]
          simp
        constructor
        · rintro (hx | ⟨q, hq, hx⟩)
          · rcases List.mem_append.mp hx with hx | hx
            · exact Or.inl hx
            · exact Or.inr ⟨now, by simp, (hnow x).mpr (Or.inl hx)⟩
          · rcases List.mem_append.mp hq with hq | hq
            · exact Or.inr ⟨q, by simp [hq], hx⟩
            · exact Or.inr ⟨now, by simp, (hnow x).mpr (Or.inr ⟨q, hq, hx⟩)⟩
        · rintro (hx | ⟨q, hq, hx⟩)
          · exact Or.inl (List.mem_append_left _ hx)
          · rcases List.mem_cons.mp hq with rfl | hq
            · rcases (hnow x).mp hx with hx' | ⟨q', hq', hx'⟩
              · exact Or.inl (List.mem_append_right _ hx')
              · exact Or.inr ⟨q', List.mem_append_right _ hq', hx'⟩
            · exact Or.inr ⟨q, List.mem_append_left _ hq, hx⟩

theorem bfsAux_nodup {adj : ℕ → List ℕ} {R : ℕ} (hadj : ∀ v, (adj v).Nodup) :
    ∀ (fuel : ℕ) (queue done arr res : List (List ℕ)),
    bfsAux adj R fuel queue arr = some res →
    arr = done ++ queue →
    arr.Nodup →
    (∀ p ∈ arr, p ≠ []) →
    (∀ p ∈ arr, 2 ≤ p.length → p.dropLast ∈ done) →
    res.Nodup := by
  intro fuel
  induction fuel with
  | zero =>
    intro queue done arr res hres harr hnd hne hdl
    cases queue with
    | nil =>
      obtain rfl : arr = res := by simpa [bfsAux] using hres
      exact hnd
    | cons now rest => simp [bfsAux] at hres
  | succ fuel ih =>
    intro queue done arr res hres harr hnd hne hdl
    cases queue with
    | nil =>
      obtain rfl : arr = res := by simpa [bfsAux] using hres
      exact hnd
    | cons now rest =>
      rw [bfsAux] at hres
      have harr' : arr = (done ++ [now]) ++ rest := by simp [harr]
      by_cases h : extensions adj now = [] ∨ R - 1 ≤ now.length + 1
      · rw [if_pos h] at hres
        exact ih _ _ _ _ hres harr' hnd hne
          (fun p hp hlen => by
            rcases hdl p hp hlen with hmem
            exact List.mem_append_left _ hmem)
      · rw [if_neg h] at hres
        have hnowarr : now ∈ arr := by rw [harr]; simp
        have hnownil : now ≠ [] := hne now hnowarr
        have hnowdone : now ∉ done := by
          rw [harr] at hnd
          rcases List.nodup_append.mp hnd with ⟨-, -, hdisj⟩
          intro hmem
          exact hdisj hmem (by simp)
        have hvar_nd : (extensions adj now).Nodup := extensions_nodup hadj now
        have hvar_shape : ∀ q ∈ extensions adj now,
            q.dropLast = now ∧ 2 ≤ q.length ∧ q ≠ [] := by
          intro q hq
          obtain ⟨a, -, -, rfl⟩ := mem_extensions.mp hq
          refine ⟨List.dropLast_concat, ?_, by simp⟩
          have : now.length ≠ 0 := by simpa using hnownil
          simp; omega
        have hdisj : arr.Disjoint (extensions adj now) := by
          intro p hp hq
          obtain ⟨hdrop, hlen, -⟩ := hvar_shape p hq
          have : p.dropLast ∈ done := hdl p hp hlen
          rw [hdrop] at this
          exact hnowdone this
        apply ih _ (done ++ [now]) (arr ++ extensions adj now) _ hres
        · rw [harr']; simp
        · exact List.nodup_append.mpr ⟨hnd, hvar_nd, hdisj⟩
        · intro p hp
          rcases List.mem_append.mp hp with hp | hp
          · exact hne p hp
          · exact (hvar_shape p hp).2.2
        · intro p hp hlen
          rcases List.mem_append.mp hp with hp | hp
          · exact List.mem_append_left _ (hdl p hp hlen)
          · rw [(hvar_shape p hp).1]; simp

theorem headD_append_of_ne_nil {q t : List ℕ} (h : q ≠ []) (d : ℕ) :
    (q ++ t).headD d = q.headD d := by
  cases q with
  | nil => exact absurd rfl h
  | cons a q' => rfl

theorem getLastD_of_ne_nil {q : List ℕ} (h : q ≠ []) :
    q.getLast?.getD 0 = q.getLast h := by
  rw [List.getLast?_eq_getLast q h]
  rfl

theorem desc_sound {adj : ℕ → List ℕ} {R : ℕ} :
    ∀ (n : ℕ) (q : List ℕ), R - 1 - q.length ≤ n → q ≠ [] →
    ∀ x ∈ desc adj R q,
      (∃ t, t ≠ [] ∧ x = q ++ t) ∧ x.length + 2 ≤ R ∧
      (q.Nodup → x.Nodup) ∧
      (List.Chain' (fun a b => b ∈ adj a) q → List.Chain' (fun a b => b ∈ adj a) x) := by
  intro n
  induction n with
  | zero =>
    intro q hn _ x hx
    rw [desc_eq_nil (Or.inr (by omega))] at hx
    simp at hx
  | succ n ih =>
    intro q hn hq x hx
    by_cases h : extensions adj q = [] ∨ R - 1 ≤ q.length + 1
    · rw [desc_eq_nil h] at hx
      simp at hx
    · have hlen : q.length + 3 ≤ R := by
        push_neg at h
        omega
      have hstep : ∀ y ∈ extensions adj q,
          (∃ a, a ∉ q ∧ y = q ++ [a]) ∧ y.length + 2 ≤ R ∧
          (q.Nodup → y.Nodup) ∧
          (List.Chain' (fun a b => b ∈ adj a) q →
            List.Chain' (fun a b => b ∈ adj a) y) := by
        intro y hy
        obtain ⟨a, hadj', hnot, rfl⟩ := mem_extensions.mp hy
        refine ⟨⟨a, hnot, rfl⟩, by simp; omega, ?_, ?_⟩
        · intro hnd
          rw [List.nodup_append]
          exact ⟨hnd, List.nodup_singleton a, by
            intro b hb hb'
            rw [List.mem_singleton] at hb'
            exact hnot (hb' ▸ hb)⟩
        · intro hch
          rw [List.chain'_append]
          refine ⟨hch, List.chain'_singleton a, ?_⟩
          intro z hz y' hy'
          rw [List.getLast?_eq_getLast q hq, Option.mem_def, Option.some_inj] at hz
          simp only [List.head?_cons, Option.mem_def, Option.some_inj] at hy'
          subst hz; subst hy'
          rwa [getLastD_of_ne_nil hq] at hadj'
      rw [desc_eq_cons h, List.mem_append] at hx
      rcases hx with hx | hx
      · obtain ⟨⟨a, hnot, rfl⟩, hl, hnd, hch⟩ := hstep _ hx
        exact ⟨⟨[a], by simp, rfl⟩, hl, hnd, hch⟩
      · rw [List.mem_flatMap] at hx
        obtain ⟨q', hq', hx⟩ := hx
        have hqlen : q'.length = q.length + 1 := length_of_mem_extensions hq'
        have hrec := ih q' (by omega) (by
          obtain ⟨⟨a, -, rfl⟩, -, -, -⟩ := hstep _ hq'
          simp) x hx
        obtain ⟨⟨a, hnot, hshape⟩, hl', hnd', hch'⟩ := hstep _ hq'
        obtain ⟨⟨t, htne, rfl⟩, hlen', hnd, hch⟩ := hrec
        refine ⟨⟨[a] ++ t, by simp, by rw [hshape]; simp⟩, hlen',
          fun h1 => hnd (hnd' h1), fun h1 => hch (hch' h1)⟩

theorem desc_complete {adj : ℕ → List ℕ} {R : ℕ} :
    ∀ (t q : List ℕ), t ≠ [] → q ≠ [] →
    (q ++ t).Nodup →
    List.Chain' (fun a b => b ∈ adj a) (q ++ t) →
    (q ++ t).length + 2 ≤ R →
    q ++ t ∈ desc adj R q := by
  intro t
  induction t with
  | nil => intro q ht; exact absurd rfl ht
  | cons a t' ih =>
    intro q _ hq hnd hch hlen
    have ha_adj : a ∈ adj (q.getLast?.getD 0) := by
      rw [List.chain'_append] at hch
      obtain ⟨-, -, hbd⟩ := hch
      have := hbd (q.getLast hq) (by rw [List.getLast?_eq_getLast q hq]; rfl) a rfl
      rwa [getLastD_of_ne_nil hq]
    have ha_not : a ∉ q := by
      rw [List.nodup_append] at hnd
      intro hmem
      exact hnd.2.2 hmem (by simp)
    have hq' : q ++ [a] ∈ extensions adj q :=
      mem_extensions.mpr ⟨a, ha_adj, ha_not, rfl⟩
    have hguard : ¬(extensions adj q = [] ∨ R - 1 ≤ q.length + 1) := by
      push_neg
      constructor
      · intro hnil
        rw [hnil] at hq'
        simp at hq'
      · simp at hlen
        omega
    rw [desc_eq_cons hguard]
    cases ht' : t' with
    | nil =>
      subst ht'
      exact List.mem_append_left _ hq'
    | cons b t'' =>
      subst ht'
      apply List.mem_append_right
      rw [List.mem_flatMap]
      refine ⟨q ++ [a], hq', ?_⟩
      have hre : q ++ a :: b :: t'' = (q ++ [a]) ++ (b :: t'') := by simp
      have := ih (q ++ [a]) (by simp) (by simp)
        (by rwa [← hre]) (by rwa [← hre]) (by rw [← hre]; exact hlen)
      rwa [← hre] at this

theorem bfs_eq_some (g : Graph) (R : ℕ) :
    bfsAux g.adj R (bfsFuel g R) (initPaths g) (initPaths g) = some (bfs g R) := by
  have h : (bfsAux g.adj R (bfsFuel g R) (initPaths g) (initPaths g)).isSome = true :=
    bfsAux_isSome (bfsFuel g R) (initPaths g) (initPaths g) le_rfl
  obtain ⟨res, hres⟩ := Option.isSome_iff_exists.mp h
  rw [hres, bfs, hres]
  rfl

theorem mem_bfs_iff (g : Graph) (R : ℕ) (p : List ℕ) :
    p ∈ bfs g R ↔ isSimplePath g p ∧ (p.length = 1 ∨ p.length + 2 ≤ R) := by
  have h2 := bfsAux_mem _ _ _ _ (bfs_eq_some g R) p
  rw [h2]
  constructor
  · rintro (hp | ⟨q, hq, hp⟩)
    · obtain ⟨x, hx, rfl⟩ := List.mem_map.mp hp
      exact ⟨⟨by simp, by simp, by simpa using hx, List.chain'_singleton x⟩, Or.inl rfl⟩
    · obtain ⟨x, hx, rfl⟩ := List.mem_map.mp hq
      obtain ⟨⟨t, htne, rfl⟩, hlen, hnd, hch⟩ :=
        desc_sound (R - 1 - 1) [x] (by simp) (by simp) p hp
      refine ⟨⟨by simp, hnd (by simp), ?_, hch (List.chain'_singleton x)⟩, Or.inr hlen⟩
      rw [headD_append_of_ne_nil (by simp)]
      simpa using hx
  · rintro ⟨⟨hne, hnd, hhd, hch⟩, hlen⟩
    cases p with
    | nil => exact absurd rfl hne
    | cons a tail =>
      have ha : a ∈ g.atoms := by simpa using hhd
      cases tail with
      | nil =>
        exact Or.inl (List.mem_map.mpr ⟨a, ha, rfl⟩)
      | cons b tail' =>
        refine Or.inr ⟨[a], List.mem_map.mpr ⟨a, ha, rfl⟩, ?_⟩
        have hre : a :: b :: tail' = [a] ++ (b :: tail') := rfl
        have hlen' : (a :: b :: tail').length + 2 ≤ R := by
          rcases hlen with h1 | h1
          · simp at h1
          · exact h1
        rw [hre]
        exact desc_complete (b :: tail') [a] (by simp) (by simp)
          (by rwa [← hre]) (by rwa [← hre]) (by rwa [← hre])

theorem bfs_nodup (g : Graph) (R : ℕ) (h1 : g.atoms.Nodup)
    (h2 : ∀ v, (g.adj v).Nodup) : (bfs g R).Nodup := by
  apply bfsAux_nodup h2 (bfsFuel g R) (initPaths g) [] (initPaths g) _
    (bfs_eq_some g R)
  · rfl
  · exact h1.map (fun x y hxy => by simpa using hxy)
  · intro p hp
    obtain ⟨x, -, rfl⟩ := List.mem_map.mp hp
    simp
  · intro p hp hlen
    obtain ⟨x, -, rfl⟩ := List.mem_map.mp hp
    simp at hlen

/-! ### Lemmas about the fragment canonicalizer -/

theorem listGT_irrefl : ∀ a : List ℤ, listGT a a = false := by
  intro a
  induction a with
  | nil => rfl
  | cons x xs ih => simp [listGT, ih]

theorem listGT_asymm : ∀ a b : List ℤ, listGT a b = true → listGT b a = false := by
  intro a
  induction a with
  | nil => intro b h; cases b <;> simp [listGT] at h ⊢
  | cons x xs ih =>
    intro b h
    cases b with
    | nil => rfl
    | cons y ys =>
      rw [listGT] at h ⊢
      rcases lt_trichotomy x y with hxy | hxy | hxy
      · rw [if_neg (not_lt.mpr hxy.le), if_pos hxy] at h
        simp at h
      · subst hxy
        rw [if_neg (lt_irrefl x), if_neg (lt_irrefl x)] at h ⊢
        exact ih ys h
      · rw [if_pos hxy, if_neg (not_lt.mpr hxy.le)]

theorem listGT_total : ∀ a b : List ℤ,
    listGT a b = false → listGT b a = false → a = b := by
  intro a
  induction a with
  | nil => intro b _ h2; cases b with
    | nil => rfl
    | cons y ys => simp [listGT] at h2
  | cons x xs ih =>
    intro b h1 h2
    cases b with
    | nil => simp [listGT] at h1
    | cons y ys =>
      rw [listGT] at h1 h2
      rcases lt_trichotomy x y with hxy | hxy | hxy
      · rw [if_pos hxy] at h2
        simp at h2
      · subst hxy
        rw [if_neg (lt_irrefl x), if_neg (lt_irrefl x)] at h1 h2
        rw [ih ys h1 h2]
      · rw [if_pos hxy] at h1
        simp at h1

/-- The invariant of the edge-label cache of `_fragments`: every stored
entry agrees with the graph's bond label. -/
def CacheOK (g : Graph) (c : Cache) : Prop :=
  ∀ x y b, c x y = some b → b = g.bondLabel x y

theorem cacheOK_empty (g : Graph) : CacheOK g (fun _ _ => none) := by
  intro x y b h
  simp at h

theorem getBond_fst (g : Graph)
    (hsymm : ∀ x y, g.bondLabel x y = g.bondLabel y x)
    {c : Cache} (hc : CacheOK g c) (x y : ℕ) :
    (getBond g c x y).1 = g.bondLabel x y ∧ CacheOK g (getBond g c x y).2 := by
  have hstore : CacheOK g (fun u v =>
      if (u = x ∧ v = y) ∨ (u = y ∧ v = x) then some (g.bondLabel x y) else c u v) := by
    intro u v b hb
    simp only at hb
    by_cases huv : (u = x ∧ v = y) ∨ (u = y ∧ v = x)
    · rw [if_pos huv] at hb
      have hbe : g.bondLabel x y = b := Option.some.inj hb
      rcases huv with ⟨h1, h2⟩ | ⟨h1, h2⟩
      · rw [h1, h2, ← hbe]
      · rw [h1, h2, ← hbe]
        exact hsymm x y
    · rw [if_neg huv] at hb
      exact hc u v b hb
  cases hcxy : c x y with
  | none =>
    have hgb : getBond g c x y = (g.bondLabel x y, fun u v =>
        if (u = x ∧ v = y) ∨ (u = y ∧ v = x) then some (g.bondLabel x y) else c u v) := by
      rw [getBond, hcxy]
    rw [hgb]
    exact ⟨rfl, hstore⟩
  | some b =>
    by_cases hb0 : b = 0
    · have hgb : getBond g c x y = (g.bondLabel x y, fun u v =>
          if (u = x ∧ v = y) ∨ (u = y ∧ v = x) then some (g.bondLabel x y) else c u v) := by
        rw [getBond, hcxy]
        simp [hb0]
      rw [hgb]
      exact ⟨rfl, hstore⟩
    · have hgb : getBond g c x y = (b, c) := by
        rw [getBond, hcxy]
        simp [hb0]
      rw [hgb]
      exact ⟨hc x y b hcxy, hc⟩

theorem fragVar_pure (g : Graph)
    (hsymm : ∀ x y, g.bondLabel x y = g.bondLabel y x) :
    ∀ (rest : List ℕ) (c : Cache) (acc : List ℤ) (prev : ℕ), CacheOK g c →
    (fragVar g c acc prev rest).1 = acc ++ fragTail g prev rest ∧
    CacheOK g (fragVar g c acc prev rest).2 := by
  intro rest
  induction rest with
  | nil => intro c acc prev hc; exact ⟨by simp [fragVar, fragTail], hc⟩
  | cons y rest ih =>
    intro c acc prev hc
    obtain ⟨hfst, hok⟩ := getBond_fst g hsymm hc prev y
    rw [fragVar]
    obtain ⟨h1, h2⟩ := ih (getBond g c prev y).2
      (acc ++ [(getBond g c prev y).1, g.atomLabel y]) y hok
    refine ⟨?_, h2⟩
    rw [h1, hfst, fragTail]
    simp

theorem fragOf_pure (g : Graph)
    (hsymm : ∀ x y, g.bondLabel x y = g.bondLabel y x)
    {c : Cache} (hc : CacheOK g c) (p : List ℕ) :
    (fragOf g c p).1 = fragSeq g p ∧ CacheOK g (fragOf g c p).2 := by
  cases p with
  | nil => exact ⟨rfl, hc⟩
  | cons a rest =>
    obtain ⟨h1, h2⟩ := fragVar_pure g hsymm rest c [g.atomLabel a] a hc
    exact ⟨by rw [fragOf, h1]; rfl, h2⟩

theorem fragmentsAux_pure (g : Graph)
    (hsymm : ∀ x y, g.bondLabel x y = g.bondLabel y x) :
    ∀ (arr : List (List ℕ)) (c : Cache) (out : List (List ℤ)), CacheOK g c →
    fragmentsAux g c arr out =
      arr.foldl (fun o p => o.insert (canon g p)) out := by
  intro arr
  induction arr with
  | nil => intro c out _; rfl
  | cons frag rest ih =>
    intro c out hc
    obtain ⟨h1, h2⟩ := fragOf_pure g hsymm hc frag
    rw [fragmentsAux, List.foldl_cons]
    rw [ih _ _ h2]
    congr 1
    rw [canon, h1]
    by_cases hgt : listGT (fragSeq g frag) (fragSeq g frag).reverse
    · rw [if_pos hgt, if_pos hgt]
    · rw [if_neg (by simpa using hgt), if_neg hgt]

theorem fragments_eq_foldl (g : Graph)
    (hsymm : ∀ x y, g.bondLabel x y = g.bondLabel y x)
    (arr : List (List ℕ)) :
    fragments g arr = arr.foldl (fun o p => o.insert (canon g p)) [] :=
  fragmentsAux_pure g hsymm arr _ [] (cacheOK_empty g)

theorem mem_foldl_insert (f : List ℕ → List ℤ) :
    ∀ (arr : List (List ℕ)) (out : List (List ℤ)) (x : List ℤ),
    x ∈ arr.foldl (fun o p => o.insert (f p)) out ↔ x ∈ out ∨ ∃ p ∈ arr, x = f p := by
  intro arr
  induction arr with
  | nil => intro out x; simp
  | cons q rest ih =>
    intro out x
    rw [List.foldl_cons, ih]
    simp only [List.mem_insert_iff, List.mem_cons]
    constructor
    · rintro ((rfl | hx) | ⟨p, hp, rfl⟩)
      · exact Or.inr ⟨q, Or.inl rfl, rfl⟩
      · exact Or.inl hx
      · exact Or.inr ⟨p, Or.inr hp, rfl⟩
    · rintro (hx | ⟨p, rfl | hp, rfl⟩)
      · exact Or.inl (Or.inr hx)
      · exact Or.inl (Or.inl rfl)
      · exact Or.inr ⟨p, hp, rfl⟩

theorem nodup_insert_of_nodup {l : List (List ℤ)} {a : List ℤ} (h : l.Nodup) :
    (l.insert a).Nodup := by
  by_cases ha : a ∈ l
  · rwa [List.insert_of_mem ha]
  · rw [List.insert_of_not_mem ha]
    exact List.nodup_cons.mpr ⟨ha, h⟩

theorem nodup_foldl_insert (f : List ℕ → List ℤ) :
    ∀ (arr : List (List ℕ)) (out : List (List ℤ)), out.Nodup →
    (arr.foldl (fun o p => o.insert (f p)) out).Nodup := by
  intro arr
  induction arr with
  | nil => intro out h; exact h
  | cons q rest ih => intro out h; exact ih _ (nodup_insert_of_nodup h)

theorem mem_fragments_iff (g : Graph)
    (hsymm : ∀ x y, g.bondLabel x y = g.bondLabel y x)
    (arr : List (List ℕ)) (x : List ℤ) :
    x ∈ fragments g arr ↔ ∃ p ∈ arr, x = canon g p := by
  rw [fragments_eq_foldl g hsymm, mem_foldl_insert]
  simp

theorem fragments_nodup (g : Graph)
    (hsymm : ∀ x y, g.bondLabel x y = g.bondLabel y x)
    (arr : List (List ℕ)) : (fragments g arr).Nodup := by
  rw [fragments_eq_foldl g hsymm]
  exact nodup_foldl_insert _ arr [] List.nodup_nil

theorem fragTail_snoc (g : Graph) :
    ∀ (rest : List ℕ) (prev y : ℕ),
    fragTail g prev (rest ++ [y]) =
      fragTail g prev rest ++ [g.bondLabel (rest.getLastD prev) y, g.atomLabel y] := by
  intro rest
  induction rest with
  | nil => intro prev y; rfl
  | cons r rest ih =>
    intro prev y
    rw [List.cons_append]
    simp only [fragTail]
    rw [ih r y, List.getLastD_cons]
    simp

theorem fragSeq_snoc (g : Graph) {l : List ℕ} (hl : l ≠ []) (y : ℕ) :
    fragSeq g (l ++ [y]) =
      fragSeq g l ++ [g.bondLabel (l.getLastD 0) y, g.atomLabel y] := by
  cases l with
  | nil => exact absurd rfl hl
  | cons c cs =>
    rw [List.cons_append]
    simp only [fragSeq]
    rw [fragTail_snoc, List.getLastD_cons]
    simp

theorem fragSeq_reverse (g : Graph)
    (hsymm : ∀ x y, g.bondLabel x y = g.bondLabel y x) :
    ∀ p : List ℕ, fragSeq g p.reverse = (fragSeq g p).reverse := by
  intro p
  induction p with
  | nil => rfl
  | cons a rest ih =>
    cases rest with
    | nil => rfl
    | cons h t =>
      rw [List.reverse_cons, fragSeq_snoc g (by simp) a, ih]
      have hlast : ((h :: t).reverse).getLastD 0 = h := by
        rw [List.getLastD_eq_getLast?, List.getLast?_reverse]
        rfl
      rw [hlast]
      show (fragSeq g (h :: t)).reverse ++ [g.bondLabel h a, g.atomLabel a] =
        (fragSeq g (a :: h :: t)).reverse
      simp only [fragSeq, fragTail]
      simp [hsymm h a]

theorem canon_reverse (g : Graph)
    (hsymm : ∀ x y, g.bondLabel x y = g.bondLabel y x) (p : List ℕ) :
    canon g (p.reverse) = canon g p := by
  have hfr : fragSeq g p.reverse = (fragSeq g p).reverse := fragSeq_reverse g hsymm p
  cases hvr : listGT (fragSeq g p) (fragSeq g p).reverse with
  | true =>
    have h1 : canon g p = fragSeq g p := by rw [canon, if_pos hvr]
    have h2 : canon g p.reverse = fragSeq g p := by
      rw [canon, hfr, List.reverse_reverse,
        if_neg (by rw [listGT_asymm _ _ hvr]; simp)]
    rw [h1, h2]
  | false =>
    have h1 : canon g p = (fragSeq g p).reverse := by
      rw [canon, if_neg (by rw [hvr]; simp)]
    cases hrv : listGT (fragSeq g p).reverse (fragSeq g p) with
    | true =>
      have h2 : canon g p.reverse = (fragSeq g p).reverse := by
        rw [canon, hfr, List.reverse_reverse, if_pos hrv]
      rw [h1, h2]
    | false =>
      have h2 : canon g p.reverse = fragSeq g p := by
        rw [canon, hfr, List.reverse_reverse, if_neg (by rw [hrv]; simp)]
      rw [h1, h2, listGT_total _ _ hrv hvr]

theorem canon_retained (g : Graph) (p : List ℕ) :
    (canon g p = fragSeq g p ∨ canon g p = (fragSeq g p).reverse) ∧
    listGT (fragSeq g p) (canon g p) = false ∧
    listGT (fragSeq g p).reverse (canon g p) = false := by
  cases hvr : listGT (fragSeq g p) (fragSeq g p).reverse with
  | true =>
    have hc : canon g p = fragSeq g p := by rw [canon, if_pos hvr]
    rw [hc]
    exact ⟨Or.inl rfl, listGT_irrefl _, listGT_asymm _ _ hvr⟩
  | false =>
    have hc : canon g p = (fragSeq g p).reverse := by
      rw [canon, if_neg (by rw [hvr]; simp)]
    rw [hc]
    exact ⟨Or.inr rfl, hvr, listGT_irrefl _⟩

/-! ### Lemmas about the bit-vector assembler -/

theorem log2Aux_stable : ∀ (f₁ f₂ n : ℕ), n ≤ f₁ → n ≤ f₂ →
    log2Aux f₁ n = log2Aux f₂ n := by
  intro f₁
  induction f₁ with
  | zero =>
    intro f₂ n h1 _
    obtain rfl : n = 0 := by omega
    cases f₂ with
    | zero => rfl
    | succ g₂ =>
      show (0 : ℕ) = log2Aux (g₂ + 1) 0
      rw [log2Aux, if_pos (by omega)]
  | succ g₁ ih =>
    intro f₂ n h1 h2
    by_cases hn : n ≤ 1
    · cases f₂ with
      | zero =>
        obtain rfl : n = 0 := by omega
        simp [log2Aux]
      | succ g₂ => rw [log2Aux, log2Aux, if_pos hn, if_pos hn]
    · obtain ⟨g₂, rfl⟩ : ∃ g₂, f₂ = g₂ + 1 := by
        cases f₂ with
        | zero => exfalso; omega
        | succ g₂ => exact ⟨g₂, rfl⟩
      rw [log2Aux, log2Aux, if_neg hn, if_neg hn,
        ih g₂ (n / 2) (by omega) (by omega)]

theorem log2_two_pow (m : ℕ) : log2f (2 ^ m) = m := by
  induction m with
  | zero => rfl
  | succ m ih =>
    have h2 : 2 ≤ 2 ^ (m + 1) := by
      calc 2 = 2 ^ 1 := rfl
      _ ≤ 2 ^ (m + 1) := Nat.pow_le_pow_right (by norm_num) (by omega)
    have hdiv : 2 ^ (m + 1) / 2 = 2 ^ m := by
      rw [pow_succ]
      omega
    obtain ⟨c, hc⟩ : ∃ c, 2 ^ (m + 1) = c + 1 := ⟨2 ^ (m + 1) - 1, by omega⟩
    have hpm : 0 < 2 ^ m := Nat.pow_pos (by norm_num)
    rw [log2f, hc, log2Aux, if_neg (by omega), ← hc, hdiv]
    rw [log2Aux_stable c (2 ^ m) (2 ^ m) (by omega) le_rfl]
    rw [← log2f, ih]

theorem bitPositions_length (cfg : Config) (hashes : List ℕ) :
    (bitPositions cfg hashes).length = cfg.numberActiveBits * hashes.length := by
  simp [bitPositions, List.length_flatMap, Function.comp_def, List.map_const',
    List.sum_replicate, smul_eq_mul]

theorem mem_bitPositions {cfg : Config} {hashes : List ℕ} {b : ℕ} :
    b ∈ bitPositions cfg hashes ↔
    ∃ x < cfg.numberActiveBits, ∃ tpl ∈ hashes,
      b = (tpl >>> (cfg.log * x)) &&& (cfg.mask - 1) := by
  simp only [bitPositions, List.mem_flatMap, List.mem_range, List.mem_map]
  constructor
  · rintro ⟨x, hx, tpl, htpl, rfl⟩
    exact ⟨x, hx, tpl, htpl, rfl⟩
  · rintro ⟨x, hx, tpl, htpl, rfl⟩
    exact ⟨x, hx, tpl, htpl, rfl⟩

theorem two_le_two_pow {m : ℕ} (hm : 1 ≤ m) : 2 ≤ 2 ^ m := by
  calc 2 = 2 ^ 1 := rfl
  _ ≤ 2 ^ m := Nat.pow_le_pow_right (by norm_num) hm

theorem two_pow_mod_two {m : ℕ} (hm : 1 ≤ m) : 2 ^ m % 2 = 0 := by
  obtain ⟨k, rfl⟩ := Nat.exists_eq_add_of_le hm
  rw [pow_add, pow_one]
  omega

theorem and_mask_lt {m : ℕ} (hm : 1 ≤ m) (h : ℕ) :
    h &&& (2 ^ m - 2) < 2 ^ m := by
  have h1 : h &&& (2 ^ m - 2) ≤ 2 ^ m - 2 := Nat.and_le_right
  have h2 : 2 ≤ 2 ^ m := two_le_two_pow hm
  omega

theorem and_mask_even {m : ℕ} (hm : 1 ≤ m) (h : ℕ) :
    (h &&& (2 ^ m - 2)) % 2 = 0 := by
  have hy : (2 ^ m - 2) % 2 = 0 := by
    have := two_pow_mod_two hm
    have := two_le_two_pow hm
    omega
  rw [← Nat.and_one_is_mod, Nat.and_assoc, Nat.and_one_is_mod, hy, Nat.and_zero]

theorem foldl_set_getD :
    ∀ (lst : List ℕ) (fp : List ℕ) (b : ℕ), b < fp.length →
    (lst.foldl (fun fp bit => fp.set bit 1) fp).getD b 0 =
      if b ∈ lst then 1 else fp.getD b 0 := by
  intro lst
  induction lst with
  | nil => intro fp b _; simp
  | cons bit rest ih =>
    intro fp b hb
    rw [List.foldl_cons, ih _ _ (by simpa using hb)]
    by_cases hbb : b = bit
    · subst hbb
      have hset : (fp.set b 1).getD b 0 = 1 := by
        rw [List.getD_eq_getElem?_getD, List.getElem?_set]
        simp [hb]
      rw [hset]
      simp
    · have hset : (fp.set bit 1).getD b 0 = fp.getD b 0 := by
        rw [List.getD_eq_getElem?_getD, List.getElem?_set,
          if_neg (fun hc => hbb hc.symm), ← List.getD_eq_getElem?_getD]
      rw [hset]
      simp [List.mem_cons, hbb]

theorem transform_getD (cfg : Config) (hash : List ℤ → ℕ) (mols : List Graph)
    (i b : ℕ) (hb : b < cfg.length) :
    ((transform cfg hash mols).getD i []).getD b 0 =
      if b ∈ (transform_bitset cfg hash mols).getD i [] then 1 else 0 := by
  by_cases hi : i < mols.length
  · have hlen : i < (transform_bitset cfg hash mols).length := by
      simpa [transform_bitset] using hi
    have hrow : (transform cfg hash mols).getD i [] =
        ((transform_bitset cfg hash mols).getD i []).foldl
          (fun fp bit => fp.set bit 1) (List.replicate cfg.length 0) := by
      rw [transform, List.getD_eq_getElem?_getD, List.getElem?_map]
      rw [List.getElem?_eq_getElem hlen]
      simp [List.getD_eq_getElem?_getD, List.getElem?_eq_getElem hlen]
    rw [hrow, foldl_set_getD _ _ _ (by simpa using hb)]
    simp [List.getD_eq_getElem?_getD, List.getElem?_replicate, hb]
  · have h1 : (transform cfg hash mols).getD i [] = [] := by
      rw [List.getD_eq_getElem?_getD, List.getElem?_eq_none]
      · rfl
      · simpa [transform, transform_bitset] using Nat.le_of_not_lt hi
    have h2 : (transform_bitset cfg hash mols).getD i [] = [] := by
      rw [List.getD_eq_getElem?_getD, List.getElem?_eq_none]
      · rfl
      · simpa [transform_bitset] using Nat.le_of_not_lt hi
    rw [h1, h2]
    simp

theorem transform_bitset_getD (cfg : Config) (hash : List ℤ → ℕ)
    (mols : List Graph) (i : ℕ) :
    (transform_bitset cfg hash mols).getD i [] =
      bitPositions cfg (hashesOf cfg hash (mols.getD i default)) := by
  by_cases hi : i < mols.length
  · rw [transform_bitset, List.getD_eq_getElem?_getD, List.getElem?_map,
      List.getElem?_eq_getElem hi]
    simp [List.getD_eq_getElem?_getD, List.getElem?_eq_getElem hi]
  · have h1 : (transform_bitset cfg hash mols).getD i [] = [] := by
      rw [List.getD_eq_getElem?_getD, List.getElem?_eq_none]
      · rfl
      · simpa [transform_bitset] using Nat.le_of_not_lt hi
    have h2 : mols.getD i default = default := by
      rw [List.getD_eq_getElem?_getD, List.getElem?_eq_none (Nat.le_of_not_lt hi)]
      rfl
    rw [h1, h2]
    have h3 : hashesOf cfg hash default = [] := rfl
    rw [h3]
    simp [bitPositions]

theorem bfs_gIso (n : ℕ) (lab : ℤ) (r : ℕ) : bfs (gIso n lab) r = [[n]] := by
  have hext : extensions (gIso n lab).adj [n] = [] := rfl
  have hdesc : desc (gIso n lab).adj r [n] = [] := desc_eq_nil (Or.inl hext)
  have hinit : initPaths (gIso n lab) = [[n]] := rfl
  have hfuel : bfsFuel (gIso n lab) r = 1 := by
    rw [bfsFuel, hinit, queueMeasure_cons, hdesc]
    rfl
  rw [bfs, hfuel, hinit]
  have hstep : bfsAux (gIso n lab).adj r 1 [[n]] [[n]] = some [[n]] := by
    rw [bfsAux, if_pos (Or.inl hext)]
    rfl
  rw [hstep]
  rfl

theorem canon_gIso (n : ℕ) (lab : ℤ) : canon (gIso n lab) [n] = [lab] := by
  have hseq : fragSeq (gIso n lab) [n] = [lab] := rfl
  rw [canon, hseq]
  have hrev : ([lab] : List ℤ).reverse = [lab] := rfl
  rw [hrev, listGT_irrefl]
  rfl

/-! ### Claim theorems -/

/-- Claim C1, counterexample: on the two-node graph `0 – 1` with
radius 3, the path `[0, 1]` is a simple path of 2 nodes (1 edge, within
the claimed bound of `R - 1 = 2` edges) but `_bfs` does not produce it:
the guard `len(var[0]) >= radius - 1` compares the node count of the
extended path, not its edge count, so the claimed bound fails. -/
theorem thm_C1_counterexample :
    isSimplePath gPath2 [0, 1] ∧ ([0, 1] : List ℕ).length ≤ 3 ∧ (1 : ℕ) ≤ 3 ∧
    [0, 1] ∉ bfs gPath2 3 := by decide

/-- Claim C1 (amended): for every graph with duplicate-free node and
adjacency lists and every radius `R`, `_bfs` produces, without
duplicates, exactly the simple paths of one node together with the
simple paths of at most `R - 2` nodes (`p.length + 2 ≤ R`); paths of
`R - 1` or `R` nodes are never produced at all. -/
theorem thm_C1 (g : Graph) (R : ℕ) (h1 : g.atoms.Nodup)
    (h2 : ∀ v, (g.adj v).Nodup) :
    (bfs g R).Nodup ∧
    ∀ p, p ∈ bfs g R ↔ isSimplePath g p ∧ (p.length = 1 ∨ p.length + 2 ≤ R) :=
  ⟨bfs_nodup g R h1 h2, mem_bfs_iff g R⟩

/-- Witness for C1 at the two-node fixture graph with radius 4. -/
theorem thm_C1_witness :
    gPath2.atoms.Nodup ∧
    ((bfs gPath2 4).Nodup ∧
      ∀ p, p ∈ bfs gPath2 4 ↔
        isSimplePath gPath2 p ∧ (p.length = 1 ∨ p.length + 2 ≤ 4)) :=
  ⟨by decide, thm_C1 gPath2 4 (by decide)
    (by intro v; dsimp [gPath2]; split_ifs <;> simp)⟩

/-- Claim C2, counterexample: with `length = 4` the code masks the
shifted hash with `mask - 1 = 2`, not with the full-range mask `3`:
hash `1` is sent to position `0` where the spec's full-range masking
(`specBitPositions`) yields `1`; position `1` is not even attainable. -/
theorem thm_C2_counterexample :
    bitPositions (mkConfig 2 4 1) [1] = [0] ∧
    specBitPositions (mkConfig 2 4 1) [1] = [1] ∧
    (1 : ℕ) ∉ bitPositions (mkConfig 2 4 1) [1] := by decide

/-- Claim C2 (amended): for `length = 2^m` with `m ≥ 1`, the assembler
produces exactly `numberActiveBits` candidate positions per hash by
shifting the hash right by multiples of `log2(length)` and masking each
shifted value with `length - 2` (`mask - 1`), so every produced
position lies in `[0, length)` and is even — odd positions are never
produced. -/
theorem thm_C2 (r m k : ℕ) (hm : 1 ≤ m) (hashes : List ℕ) :
    (bitPositions (mkConfig r (2 ^ m) k) hashes).length = k * hashes.length ∧
    ∀ b ∈ bitPositions (mkConfig r (2 ^ m) k) hashes,
      b < 2 ^ m ∧ b % 2 = 0 ∧
      ∃ x < k, ∃ tpl ∈ hashes, b = (tpl >>> (m * x)) &&& (2 ^ m - 2) := by
  have hmask : (mkConfig r (2 ^ m) k).mask - 1 = 2 ^ m - 2 := by
    show 2 ^ m - 1 - 1 = 2 ^ m - 2
    omega
  have hlog : (mkConfig r (2 ^ m) k).log = m := log2_two_pow m
  constructor
  · rw [bitPositions_length]
    rfl
  · intro b hb
    obtain ⟨x, hx, tpl, htpl, rfl⟩ := mem_bitPositions.mp hb
    rw [hmask, hlog]
    exact ⟨and_mask_lt hm _, and_mask_even hm _, x, hx, tpl, htpl, rfl⟩

/-- Witness for C2 with `length = 4`, two active bits, two hashes. -/
theorem thm_C2_witness :
    (1 : ℕ) ≤ 2 ∧
    ((bitPositions (mkConfig 4 (2 ^ 2) 2) [5, 6]).length = 2 * 2 ∧
      ∀ b ∈ bitPositions (mkConfig 4 (2 ^ 2) 2) [5, 6],
        b < 2 ^ 2 ∧ b % 2 = 0 ∧
        ∃ x < 2, ∃ tpl ∈ [5, 6], b = (tpl >>> (2 * x)) &&& (2 ^ 2 - 2)) :=
  ⟨by decide, thm_C2 4 2 2 (by decide) [5, 6]⟩

/-- Claim C3: canonicalizing a path and its reversal yields the same
canonical fragment (this is what `_fragments` computes on that path,
shown by `fragments g [p]`), and the retained sequence is the
lexicographically greater-or-equal of the interleaved label sequence
and its exact reversal. -/
theorem thm_C3 (g : Graph)
    (hsymm : ∀ x y, g.bondLabel x y = g.bondLabel y x) (p : List ℕ) :
    canon g (p.reverse) = canon g p ∧
    fragments g [p] = [canon g p] ∧
    (canon g p = fragSeq g p ∨ canon g p = (fragSeq g p).reverse) ∧
    listGT (fragSeq g p) (canon g p) = false ∧
    listGT (fragSeq g p).reverse (canon g p) = false := by
  refine ⟨canon_reverse g hsymm p, ?_, canon_retained g p⟩
  rw [fragments_eq_foldl g hsymm, List.foldl_cons, List.foldl_nil,
    List.insert_of_not_mem (by simp)]

/-- Witness for C3 at the two-node fixture graph and the path `[0, 1]`. -/
theorem thm_C3_witness :
    (∀ x y, gPath2.bondLabel x y = gPath2.bondLabel y x) ∧
    (canon gPath2 ([0, 1] : List ℕ).reverse = canon gPath2 [0, 1] ∧
      fragments gPath2 [[0, 1]] = [canon gPath2 [0, 1]] ∧
      (canon gPath2 [0, 1] = fragSeq gPath2 [0, 1] ∨
        canon gPath2 [0, 1] = (fragSeq gPath2 [0, 1]).reverse) ∧
      listGT (fragSeq gPath2 [0, 1]) (canon gPath2 [0, 1]) = false ∧
      listGT (fragSeq gPath2 [0, 1]).reverse (canon gPath2 [0, 1]) = false) :=
  ⟨fun _ _ => rfl, thm_C3 gPath2 (fun _ _ => rfl) [0, 1]⟩

/-- Claim C4, counterexample: `__init__` performs no validation:
`radius = 0`, a positive non-power-of-two `length = 1000`, and
`numberActiveBits = 0` are all accepted at construction time, where the
claim says construction must fail. -/
theorem thm_C4_counterexample :
    (init 0 1024 2).isSome = true ∧
    (init 4 1000 2).isSome = true ∧
    (init 4 1024 0).isSome = true := by decide

/-- Claim C4 (amended): construction performs no parameter validation;
it succeeds for every `radius` and `numberActiveBits` and every positive
`length` (power of two or not), and fails only when `length` is not
positive, through the domain error of `log2(length)`. -/
theorem thm_C4 (radius length numberActiveBits : ℕ) :
    (init radius length numberActiveBits).isSome = true ↔ length ≠ 0 := by
  rw [init]
  by_cases h : length = 0 <;> simp [h]

/-- Claim C5, counterexample: with `length = 2` and two active bits the
sparse row for a single-fragment graph is `[0, 0]` — the same bit index
twice.  The sparse output is a plain list, not a set: duplicates are
not collapsed. -/
theorem thm_C5_counterexample :
    transform_bitset (mkConfig 2 2 2) hashModel [gIso 0 5] = [[0, 0]] ∧
    ¬ ([0, 0] : List ℕ).Nodup := by decide

/-- Claim C5 (amended): the sparse per-graph output is a plain list of
candidate bit positions with one entry per (shift, hash) pair —
`numberActiveBits` times the number of distinct fragment hashes — and
may contain duplicate bit indices when different hashes or different
shifts of the same hash map to the same position; duplicates are not
collapsed (only the distinct hashes, not the positions, are
deduplicated). -/
theorem thm_C5 (cfg : Config) (hash : List ℤ → ℕ) (mols : List Graph) (i : ℕ) :
    (transform_bitset cfg hash mols).getD i [] =
      bitPositions cfg (hashesOf cfg hash (mols.getD i default)) ∧
    ((transform_bitset cfg hash mols).getD i []).length =
      cfg.numberActiveBits * (hashesOf cfg hash (mols.getD i default)).length :=
  ⟨transform_bitset_getD cfg hash mols i, by
    rw [transform_bitset_getD cfg hash mols i, bitPositions_length]⟩

/-- Claim C6: for every batch, graph index `i` and bit `b` in
`[0, length)` (with `length = 2^m`, `m ≥ 1`), the dense entry point
sets bit `b` of row `i` to `1` exactly when `b` occurs in the sparse
entry point's index list for graph `i`. -/
theorem thm_C6 (r m k : ℕ) (hash : List ℤ → ℕ) (mols : List Graph)
    (hm : 1 ≤ m) (i b : ℕ) (hb : b < 2 ^ m) :
    ((transform (mkConfig r (2 ^ m) k) hash mols).getD i []).getD b 0 = 1 ↔
      b ∈ (transform_bitset (mkConfig r (2 ^ m) k) hash mols).getD i [] := by
  rw [transform_getD _ _ _ i b hb]
  by_cases hmem : b ∈ (transform_bitset (mkConfig r (2 ^ m) k) hash mols).getD i []
  · simp [hmem]
  · simp [hmem]

/-- Witness for C6 on a one-graph batch with `length = 8`. -/
theorem thm_C6_witness :
    (1 : ℕ) ≤ 3 ∧ (4 : ℕ) < 2 ^ 3 ∧
    (((transform (mkConfig 2 (2 ^ 3) 2) hashModel [gIso 0 5]).getD 0 []).getD 4 0 = 1 ↔
      4 ∈ (transform_bitset (mkConfig 2 (2 ^ 3) 2) hashModel [gIso 0 5]).getD 0 []) :=
  ⟨by decide, by decide,
    thm_C6 2 3 2 hashModel [gIso 0 5] (by decide) 0 4 (by decide)⟩

/-- Claim C7: for fixed radius and length, raising `numberActiveBits`
from `k` to `k + 1` makes the set of active bit positions of every
graph's sparse row a superset of the previous one, so the number of set
bits in the fingerprint never decreases. -/
theorem thm_C7 (r l k : ℕ) (hash : List ℤ → ℕ) (mols : List Graph) (i : ℕ) :
    ((transform_bitset (mkConfig r l k) hash mols).getD i []).toFinset ⊆
      ((transform_bitset (mkConfig r l (k + 1)) hash mols).getD i []).toFinset ∧
    ((transform_bitset (mkConfig r l k) hash mols).getD i []).toFinset.card ≤
      ((transform_bitset (mkConfig r l (k + 1)) hash mols).getD i []).toFinset.card := by
  have hsub : ((transform_bitset (mkConfig r l k) hash mols).getD i []).toFinset ⊆
      ((transform_bitset (mkConfig r l (k + 1)) hash mols).getD i []).toFinset := by
    intro b hb
    rw [List.mem_toFinset, transform_bitset_getD] at hb ⊢
    obtain ⟨x, hx, tpl, htpl, rfl⟩ := mem_bitPositions.mp hb
    exact mem_bitPositions.mpr ⟨x, Nat.lt_succ_of_lt hx, tpl, htpl, rfl⟩
  exact ⟨hsub, Finset.card_le_card hsub⟩

/-- Claim C8: with a configured radius `R ≥ 1`, no path produced by
`_bfs` has more than `R` nodes (the code in fact stops two nodes
short of `R`). -/
theorem thm_C8 (g : Graph) (R : ℕ) (hR : 1 ≤ R) (p : List ℕ)
    (hp : p ∈ bfs g R) : p.length ≤ R := by
  obtain ⟨-, hlen⟩ := (mem_bfs_iff g R p).mp hp
  omega

/-- Witness for C8 at the two-node fixture graph with radius 4. -/
theorem thm_C8_witness :
    (1 : ℕ) ≤ 4 ∧ [0, 1] ∈ bfs gPath2 4 ∧ ([0, 1] : List ℕ).length ≤ 4 :=
  ⟨by decide, by decide, thm_C8 gPath2 4 (by decide) [0, 1] (by decide)⟩

/-- Claim C9: a single-node graph with no edges yields exactly one
canonical fragment — the singleton holding the node's label — and the
sparse fingerprint row has at most `numberActiveBits` distinct bit
positions, for any radius `≥ 2`. -/
theorem thm_C9 (n : ℕ) (lab : ℤ) (r l k : ℕ) (hash : List ℤ → ℕ)
    (hr : 2 ≤ r) :
    fragments (gIso n lab) (bfs (gIso n lab) r) = [[lab]] ∧
    ((transform_bitset (mkConfig r l k) hash [gIso n lab]).getD 0 []).toFinset.card ≤ k := by
  have hsymm : ∀ x y, (gIso n lab).bondLabel x y = (gIso n lab).bondLabel y x :=
    fun _ _ => rfl
  have hfr : fragments (gIso n lab) (bfs (gIso n lab) r) = [[lab]] := by
    rw [bfs_gIso, fragments_eq_foldl _ hsymm, List.foldl_cons, List.foldl_nil,
      List.insert_of_not_mem (by simp), canon_gIso]
  refine ⟨hfr, ?_⟩
  have hhashes : hashesOf (mkConfig r l k) hash (gIso n lab) = [hash [lab]] := by
    rw [hashesOf]
    show ((fragments (gIso n lab) (bfs (gIso n lab) r)).map hash).dedup = _
    rw [hfr]
    rfl
  calc ((transform_bitset (mkConfig r l k) hash [gIso n lab]).getD 0 []).toFinset.card
      ≤ ((transform_bitset (mkConfig r l k) hash [gIso n lab]).getD 0 []).length :=
        List.toFinset_card_le _
    _ = k := by
        rw [transform_bitset_getD]
        show (bitPositions _ (hashesOf _ hash (gIso n lab))).length = k
        rw [hhashes, bitPositions_length]
        simp [mkConfig]

/-- Witness for C9 at node 3 with label 5, radius 4, length 16, two
active bits. -/
theorem thm_C9_witness :
    (2 : ℕ) ≤ 4 ∧
    (fragments (gIso 3 5) (bfs (gIso 3 5) 4) = [[5]] ∧
      ((transform_bitset (mkConfig 4 16 2) hashModel [gIso 3 5]).getD 0 []).toFinset.card ≤ 2) :=
  ⟨by decide, thm_C9 3 5 4 16 2 hashModel (by decide)⟩

/-- Claim C10: the worklist enumeration of `_bfs` terminates: with the
computed fuel (one dequeue per seed path plus one per descendant that
will ever be enqueued) the queue is exhausted and the loop returns its
accumulated path list, for every graph and every radius. -/
theorem thm_C10 (g : Graph) (R : ℕ) :
    bfsAux g.adj R (bfsFuel g R) (initPaths g) (initPaths g) = some (bfs g R) :=
  bfs_eq_some g R

end MorganFP
